import Mathlib

/-!
Verification of the ordered dictionary `uhd::dict<Key, Val>` from
host/include/uhd/types/dict.hpp.

The C++ class stores its pairs in a private `std::list<std::pair<Key, Val>>`
member named `_map` and performs linear scans for every keyed operation.  We
embed the container as a Lean structure wrapping a `List (K × V)` and translate
each member function into a Lean function that follows the corresponding loop.

Key equality (`==` from the C++ template contract) is modelled by decidable
propositional equality on `K`.  The exception thrown by the const accessor and
by `pop` is modelled by the explicit error type `DictError`; operations that
can throw return `Except` values (for `pop`, paired with the post-state of the
container, since a thrown exception leaves the `std::list` untouched).
-/

namespace uhd

/-- The dictionary `uhd::dict<Key, Val>`: a wrapper around the private
container `std::list<std::pair<Key, Val>> _map`. -/
structure dict (K V : Type) where
  _map : List (K × V)

variable {K V : Type}

/-- The default constructor `dict(void)`: a new empty dictionary. -/
def dict.empty : dict K V := ⟨[]⟩

/-- The input-iterator constructor `dict(first, last)`: iterates over the
range and executes `_map.push_back(*it)` for every element. -/
def dict.ofPairs (ps : List (K × V)) : dict K V :=
  ⟨ps.foldl (fun m p => m ++ [p]) []⟩

/-- Member function `size()`: returns `_map.size()`. -/
def dict.size (d : dict K V) : Nat := d._map.length

/-- The loop body of `keys()`: for each pair `p` of the container, in order,
push back `p.first`. -/
def keysAux : List (K × V) → List K
  | [] => []
  | p :: ps => p.1 :: keysAux ps

/-- Member function `keys()`: a snapshot vector of the keys in container
order. -/
def dict.keys (d : dict K V) : List K := keysAux d._map

/-- The loop body of `vals()`: for each pair `p` of the container, in order,
push back `p.second`. -/
def valsAux : List (K × V) → List V
  | [] => []
  | p :: ps => p.2 :: valsAux ps

/-- Member function `vals()`: a snapshot vector of the values in container
order. -/
def dict.vals (d : dict K V) : List V := valsAux d._map

/-- The loop of `has_key(key)`: scan the pairs in order and return true at the
first pair whose key compares equal; return false after the loop. -/
def hasKeyAux [DecidableEq K] (k : K) : List (K × V) → Bool
  | [] => false
  | p :: ps => if p.1 = k then true else hasKeyAux k ps

/-- Member function `has_key(key)`. -/
def dict.has_key [DecidableEq K] (d : dict K V) (k : K) : Bool :=
  hasKeyAux k d._map

/-- The exception built by the private helper `key_not_found_in_dict(key)`:
a `std::out_of_range` carrying the offending key. -/
inductive DictError (K : Type) where
  | key_not_found_in_dict (key : K)
deriving DecidableEq

/-- The loop of the const accessor `operator[](key) const`: scan the pairs in
order, return `p.second` at the first pair whose key compares equal, and throw
`key_not_found_in_dict(key)` after the loop. -/
def getAux [DecidableEq K] (k : K) : List (K × V) → Except (DictError K) V
  | [] => .error (.key_not_found_in_dict k)
  | p :: ps => if p.1 = k then .ok p.2 else getAux k ps

/-- Const accessor `operator[](key) const` (the read, `get`). -/
def dict.get [DecidableEq K] (d : dict K V) (k : K) : Except (DictError K) V :=
  getAux k d._map

/-- The loop of the non-const `operator[](key)`: scan the pairs in order and
return a reference to `p.second` at the first pair whose key compares equal;
after the loop, `push_back(make_pair(key, Val()))` and return a reference to
the value of the new last pair.  `Val()` value-initialization is modelled by
`default`.  The result is the post-state of the container together with the
value currently held behind the returned reference. -/
def gidAux [DecidableEq K] [Inhabited V] (k : K) :
    List (K × V) → List (K × V) × V
  | [] => ([(k, default)], default)
  | p :: ps =>
    if p.1 = k then (p :: ps, p.2)
    else
      let r := gidAux k ps
      (p :: r.1, r.2)

/-- Non-const `operator[](key)` used as a pure access (get-or-insert-default):
the new container state and the value behind the returned reference. -/
def dict.getOrInsertDefault [DecidableEq K] [Inhabited V]
    (d : dict K V) (k : K) : dict K V × V :=
  let r := gidAux k d._map
  (⟨r.1⟩, r.2)

/-- The indexed write `d[key] = v`: the non-const `operator[]` locates the
first pair whose key compares equal (or appends a fresh pair) and the
assignment writes `v` through the returned reference, i.e. into the field
`second` of that pair. -/
def setAux [DecidableEq K] (k : K) (v : V) : List (K × V) → List (K × V)
  | [] => [(k, v)]
  | p :: ps => if p.1 = k then (p.1, v) :: ps else p :: setAux k v ps

/-- The indexed write `d[key] = v` on the dictionary. -/
def dict.set [DecidableEq K] (d : dict K V) (k : K) (v : V) : dict K V :=
  ⟨setAux k v d._map⟩

/-- The loop of `pop(key)`: iterate over the container; `continue` past every
pair whose key compares unequal; at the first equal pair, copy its value,
`erase` the pair and return the value; after the loop, throw
`key_not_found_in_dict(key)`.  The result is the post-state of the container
(unchanged when the exception is thrown) together with the outcome. -/
def popAux [DecidableEq K] (k : K) :
    List (K × V) → List (K × V) × Except (DictError K) V
  | [] => ([], .error (.key_not_found_in_dict k))
  | p :: ps =>
    if p.1 ≠ k then
      let r := popAux k ps
      (p :: r.1, r.2)
    else (ps, .ok p.2)

/-- Member function `pop(key)` on the dictionary. -/
def dict.pop [DecidableEq K] (d : dict K V) (k : K) :
    dict K V × Except (DictError K) V :=
  let r := popAux k d._map
  (⟨r.1⟩, r.2)

/-- A mutating operation on the dictionary: an indexed write `d[k] = v` or a
`pop(k)`. -/
inductive Op (K V : Type) where
  | write (k : K) (v : V)
  | pop (k : K)

/-- The container state after executing one mutating operation (a `pop` that
throws leaves the container unchanged, which is its first component). -/
def applyOp [DecidableEq K] (d : dict K V) : Op K V → dict K V
  | .write k v => d.set k v
  | .pop k => (d.pop k).1

/-- The container state after executing a sequence of mutating operations. -/
def runOps [DecidableEq K] (d : dict K V) (ops : List (Op K V)) : dict K V :=
  ops.foldl applyOp d

/-- The left fold inserting a batch of pairs one by one through the indexed
write, in order. -/
def insertAll [DecidableEq K] (d : dict K V) (ps : List (K × V)) : dict K V :=
  ps.foldl (fun m p => m.set p.1 p.2) d

/-! ### Basic lemmas about the loops -/

theorem dict.ext_iff_map (a b : dict K V) : a = b ↔ a._map = b._map := by
  cases a
  cases b
  simp

theorem keysAux_eq_map (l : List (K × V)) : keysAux l = l.map Prod.fst := by
  induction l with
  | nil => rfl
  | cons p ps ih => simp [keysAux, ih]

theorem valsAux_eq_map (l : List (K × V)) : valsAux l = l.map Prod.snd := by
  induction l with
  | nil => rfl
  | cons p ps ih => simp [valsAux, ih]

theorem hasKeyAux_iff_mem [DecidableEq K] (k : K) (l : List (K × V)) :
    hasKeyAux k l = true ↔ k ∈ keysAux l := by
  induction l with
  | nil => simp [hasKeyAux, keysAux]
  | cons p ps ih =>
    by_cases h : p.1 = k
    · simp [hasKeyAux, keysAux, h]
    · simp [hasKeyAux, keysAux, h, ih, Ne.symm h]

theorem hasKeyAux_false_iff [DecidableEq K] (k : K) (l : List (K × V)) :
    hasKeyAux k l = false ↔ ∀ p ∈ l, p.1 ≠ k := by
  induction l with
  | nil => simp [hasKeyAux]
  | cons p ps ih =>
    by_cases h : p.1 = k
    · simp [hasKeyAux, h]
    · simp [hasKeyAux, h, ih]

theorem keysAux_append (a b : List (K × V)) :
    keysAux (a ++ b) = keysAux a ++ keysAux b := by
  simp [keysAux_eq_map]

theorem getAux_eq_find [DecidableEq K] (k : K) (l : List (K × V)) :
    getAux k l = (l.find? (fun p => decide (p.1 = k))).elim
      (Except.error (DictError.key_not_found_in_dict k)) (fun p => Except.ok p.2) := by
  induction l with
  | nil => rfl
  | cons p ps ih =>
    by_cases h : p.1 = k
    · simp [getAux, h, List.find?_cons]
    · simp [getAux, h, List.find?_cons, ih]

theorem getAux_error_iff [DecidableEq K] (k : K) (l : List (K × V)) (e : DictError K) :
    getAux (V := V) k l = .error e ↔
      (e = .key_not_found_in_dict k ∧ hasKeyAux k l = false) := by
  induction l with
  | nil =>
    simp [getAux, hasKeyAux]
    exact comm
  | cons p ps ih =>
    by_cases h : p.1 = k
    · simp [getAux, hasKeyAux, h]
    · simp [getAux, hasKeyAux, h, ih]

theorem getAux_setAux [DecidableEq K] (k : K) (v : V) (l : List (K × V)) :
    getAux k (setAux k v l) = .ok v := by
  induction l with
  | nil => simp [setAux, getAux]
  | cons p ps ih =>
    by_cases h : p.1 = k
    · simp [setAux, getAux, h]
    · simp [setAux, getAux, h, ih]

theorem hasKeyAux_setAux [DecidableEq K] (k : K) (v : V) (l : List (K × V)) :
    hasKeyAux k (setAux k v l) = true := by
  induction l with
  | nil => simp [setAux, hasKeyAux]
  | cons p ps ih =>
    by_cases h : p.1 = k
    · simp [setAux, hasKeyAux, h]
    · simp [setAux, hasKeyAux, h, ih]

theorem keysAux_setAux_of_mem [DecidableEq K] (k : K) (v : V) (l : List (K × V))
    (h : k ∈ keysAux l) : keysAux (setAux k v l) = keysAux l := by
  induction l with
  | nil => simp [keysAux] at h
  | cons p ps ih =>
    by_cases hp : p.1 = k
    · simp [setAux, keysAux, hp]
    · have hmem : k ∈ keysAux ps := by
        simp [keysAux] at h
        rcases h with h | h
        · exact absurd h.symm hp
        · exact h
      simp [setAux, keysAux, hp, ih hmem]

theorem setAux_of_not_mem [DecidableEq K] (k : K) (v : V) (l : List (K × V))
    (h : k ∉ keysAux l) : setAux k v l = l ++ [(k, v)] := by
  induction l with
  | nil => simp [setAux]
  | cons p ps ih =>
    simp [keysAux] at h
    push_neg at h
    have hp : ¬p.1 = k := fun hp => h.1 hp.symm
    simp [setAux, hp, ih h.2]

theorem keysAux_setAux_of_not_mem [DecidableEq K] (k : K) (v : V) (l : List (K × V))
    (h : k ∉ keysAux l) : keysAux (setAux k v l) = keysAux l ++ [k] := by
  rw [setAux_of_not_mem k v l h, keysAux_append]
  rfl

theorem nodup_keysAux_setAux [DecidableEq K] (k : K) (v : V) (l : List (K × V))
    (h : (keysAux l).Nodup) : (keysAux (setAux k v l)).Nodup := by
  by_cases hm : k ∈ keysAux l
  · rw [keysAux_setAux_of_mem k v l hm]
    exact h
  · rw [keysAux_setAux_of_not_mem k v l hm]
    simp [List.nodup_append, h, hm]

theorem popAux_not_found [DecidableEq K] (k : K) (l : List (K × V))
    (h : hasKeyAux k l = false) :
    popAux k l = (l, .error (.key_not_found_in_dict k)) := by
  induction l with
  | nil => rfl
  | cons p ps ih =>
    simp [hasKeyAux] at h
    by_cases hp : p.1 = k
    · simp [hp] at h
    · simp [hp] at h
      simp [popAux, hp, ih h]

theorem popAux_found [DecidableEq K] (k : K) (l : List (K × V))
    (h : hasKeyAux k l = true) :
    ∃ pre v post, l = pre ++ (k, v) :: post ∧ (∀ p ∈ pre, p.1 ≠ k)
      ∧ getAux k l = .ok v ∧ popAux k l = (pre ++ post, .ok v) := by
  induction l with
  | nil => simp [hasKeyAux] at h
  | cons p ps ih =>
    by_cases hp : p.1 = k
    · refine ⟨[], p.2, ps, ?_, by simp, by simp [getAux, hp], by simp [popAux, hp]⟩
      have : p = (k, p.2) := by
        rw [← hp]
      simp [← this]
    · have hps : hasKeyAux k ps = true := by
        simpa [hasKeyAux, hp] using h
      obtain ⟨pre, v, post, heq, hpre, hget, hpop⟩ := ih hps
      refine ⟨p :: pre, v, post, by simp [heq], ?_, by simp [getAux, hp, hget],
        by simp [popAux, hp, hpop]⟩
      intro q hq
      rcases List.mem_cons.mp hq with hq | hq
      · rw [hq]
        exact hp
      · exact hpre q hq

theorem popAux_error_iff [DecidableEq K] (k : K) (l : List (K × V)) (e : DictError K) :
    (popAux k l).2 = .error e ↔
      (e = .key_not_found_in_dict k ∧ hasKeyAux k l = false) := by
  cases hk : hasKeyAux k l
  · rw [popAux_not_found k l hk]
    simp
    exact comm
  · obtain ⟨pre, v, post, _, _, _, hpop⟩ := popAux_found k l hk
    rw [hpop]
    simp

theorem popAux_fst_sublist [DecidableEq K] (k : K) (l : List (K × V)) :
    List.Sublist (popAux k l).1 l := by
  induction l with
  | nil => simp [popAux]
  | cons p ps ih =>
    by_cases hp : p.1 = k
    · simp [popAux, hp]
    · simp [popAux, hp]
      exact ih

theorem nodup_keysAux_popAux [DecidableEq K] (k : K) (l : List (K × V))
    (h : (keysAux l).Nodup) : (keysAux (popAux k l).1).Nodup := by
  have hs : List.Sublist (keysAux (popAux k l).1) (keysAux l) := by
    rw [keysAux_eq_map, keysAux_eq_map]
    exact List.Sublist.map Prod.fst (popAux_fst_sublist k l)
  exact h.sublist hs

/-! ### The uniqueness invariant and mutation sequences -/

theorem keys_applyOp_nodup [DecidableEq K] (d : dict K V) (o : Op K V)
    (h : d.keys.Nodup) : (applyOp d o).keys.Nodup := by
  cases o with
  | write k v => exact nodup_keysAux_setAux k v d._map h
  | pop k => exact nodup_keysAux_popAux k d._map h

theorem keys_runOps_nodup [DecidableEq K] (d : dict K V) (ops : List (Op K V))
    (h : d.keys.Nodup) : (runOps d ops).keys.Nodup := by
  induction ops generalizing d with
  | nil => exact h
  | cons o os ih => exact ih (applyOp d o) (keys_applyOp_nodup d o h)

theorem insertAll_keys_fresh [DecidableEq K] (ps : List (K × V)) (d : dict K V)
    (hfresh : ∀ p ∈ ps, p.1 ∉ d.keys) (hnd : (ps.map Prod.fst).Nodup) :
    (insertAll d ps).keys = d.keys ++ ps.map Prod.fst := by
  induction ps generalizing d with
  | nil => simp [insertAll]
  | cons p ps ih =>
    have hkeys : (d.set p.1 p.2).keys = d.keys ++ [p.1] :=
      keysAux_setAux_of_not_mem p.1 p.2 d._map (hfresh p (by simp))
    have hnd' : (ps.map Prod.fst).Nodup := by
      simp [List.nodup_cons] at hnd
      exact hnd.2
    have hfresh' : ∀ q ∈ ps, q.1 ∉ (d.set p.1 p.2).keys := by
      intro q hq
      rw [hkeys]
      simp only [List.map_cons, List.nodup_cons] at hnd
      simp only [List.mem_append, List.mem_singleton]
      push_neg
      refine ⟨hfresh q (List.mem_cons_of_mem p hq), ?_⟩
      intro hq1
      refine hnd.1 ?_
      rw [← hq1]
      exact List.mem_map_of_mem Prod.fst hq
    have := ih (d.set p.1 p.2) hfresh' hnd'
    simp [insertAll] at this ⊢
    rw [this, hkeys]
    simp

theorem hasKeyAux_false_iff_not_mem [DecidableEq K] (k : K) (l : List (K × V)) :
    hasKeyAux k l = false ↔ k ∉ keysAux l := by
  rw [← hasKeyAux_iff_mem]
  cases hasKeyAux k l <;> simp

theorem getAux_append_of_not_found [DecidableEq K] (k : K) (l m : List (K × V))
    (h : hasKeyAux k l = false) : getAux k (l ++ m) = getAux k m := by
  induction l with
  | nil => simp
  | cons p ps ih =>
    simp [hasKeyAux] at h
    by_cases hp : p.1 = k
    · simp [hp] at h
    · simp [hp] at h
      simp [getAux, hp, ih h]

theorem gidAux_not_found [DecidableEq K] [Inhabited V] (k : K) (l : List (K × V))
    (h : hasKeyAux k l = false) :
    gidAux k l = (l ++ [(k, (default : V))], (default : V)) := by
  induction l with
  | nil => rfl
  | cons p ps ih =>
    simp [hasKeyAux] at h
    by_cases hp : p.1 = k
    · simp [hp] at h
    · simp [hp] at h
      simp [gidAux, hp, ih h]

theorem gidAux_found [DecidableEq K] [Inhabited V] (k : K) (v : V) (l : List (K × V))
    (h : getAux k l = .ok v) : gidAux k l = (l, v) := by
  induction l with
  | nil => simp [getAux] at h
  | cons p ps ih =>
    by_cases hp : p.1 = k
    · simp [getAux, hp] at h
      simp [gidAux, hp, h]
    · simp [getAux, hp] at h
      simp [gidAux, hp, ih h]

theorem foldl_push_back (ps acc : List (K × V)) :
    ps.foldl (fun m p => m ++ [p]) acc = acc ++ ps := by
  induction ps generalizing acc with
  | nil => simp
  | cons p ps ih => simp [ih]

theorem ofPairs_map (ps : List (K × V)) : (dict.ofPairs ps)._map = ps := by
  simp [dict.ofPairs, foldl_push_back]

/-! ### The claims -/

/-- C1: key uniqueness under mutation.  Starting from any dictionary whose
key sequence satisfies the uniqueness invariant (in particular from the empty
dictionary, whose key sequence is empty), after any sequence of mutating
operations (indexed writes and pops) at most one stored pair has a key equal
to any given k; in particular, after inserting key k twice via the indexed
write with values v1 then v2, the read accessor returns v2 and the keys
snapshot counts k exactly once (the second write updates in place rather than
appending). -/
theorem C1_key_uniqueness [DecidableEq K] (d : dict K V) (h : d.keys.Nodup)
    (ops : List (Op K V)) (k : K) (v1 v2 : V) :
    List.count k (runOps d ops).keys ≤ 1
    ∧ (((runOps d ops).set k v1).set k v2).get k = .ok v2
    ∧ List.count k (((runOps d ops).set k v1).set k v2).keys = 1 := by
  have hnd : (runOps d ops).keys.Nodup := keys_runOps_nodup d ops h
  refine ⟨List.nodup_iff_count_le_one.mp hnd k, getAux_setAux k v2 _, ?_⟩
  have hmem : k ∈ keysAux (setAux k v1 (runOps d ops)._map) :=
    (hasKeyAux_iff_mem k _).mp (hasKeyAux_setAux k v1 _)
  have hkeys : (((runOps d ops).set k v1).set k v2).keys
      = keysAux (setAux k v1 (runOps d ops)._map) :=
    keysAux_setAux_of_mem k v2 _ hmem
  rw [hkeys]
  exact List.count_eq_one_of_mem (nodup_keysAux_setAux k v1 _ hnd) hmem

/-- Witness for C1 at K = V = Nat, starting from the empty dictionary, with
the operation sequence [write 1 2, pop 1] and k = 0, v1 = 3, v2 = 4. -/
theorem C1_key_uniqueness_witness :
    (dict.empty : dict Nat Nat).keys.Nodup
    ∧ (List.count 0 (runOps (dict.empty : dict Nat Nat) [Op.write 1 2, Op.pop 1]).keys ≤ 1
       ∧ (((runOps (dict.empty : dict Nat Nat) [Op.write 1 2, Op.pop 1]).set 0 3).set 0 4).get 0
           = .ok 4
       ∧ List.count 0
           (((runOps (dict.empty : dict Nat Nat) [Op.write 1 2, Op.pop 1]).set 0 3).set 0 4).keys
           = 1) :=
  ⟨by decide, C1_key_uniqueness dict.empty (by decide) [Op.write 1 2, Op.pop 1] 0 3 4⟩

/-- C2: order preservation.  Inserting pairwise distinct keys k1..kn in that
order via the indexed write into the empty dictionary makes the keys snapshot
exactly [k1, ..., kn] in that order, and a further indexed write to a key that
is already present leaves the keys snapshot unchanged. -/
theorem C2_order_preservation [DecidableEq K] (ps : List (K × V))
    (hnd : (ps.map Prod.fst).Nodup) (d : dict K V) (k : K) (v : V)
    (hk : k ∈ d.keys) :
    (insertAll dict.empty ps).keys = ps.map Prod.fst
    ∧ (d.set k v).keys = d.keys := by
  constructor
  · have hfresh : ∀ p ∈ ps, p.1 ∉ (dict.empty : dict K V).keys := by
      intro p hp
      simp [dict.empty, dict.keys, keysAux]
    have := insertAll_keys_fresh ps dict.empty hfresh hnd
    simpa [dict.empty, dict.keys, keysAux] using this
  · exact keysAux_setAux_of_mem k v d._map hk

/-- Witness for C2 at K = V = Nat, inserting the pairs [(0,1),(1,2)] into the
empty dictionary, and updating the present key 5 of a one-pair dictionary. -/
theorem C2_order_preservation_witness :
    ([((0 : Nat), (1 : Nat)), (1, 2)].map Prod.fst).Nodup
    ∧ 5 ∈ (dict.ofPairs [((5 : Nat), (7 : Nat))]).keys
    ∧ ((insertAll dict.empty [((0 : Nat), (1 : Nat)), (1, 2)]).keys
         = [((0 : Nat), (1 : Nat)), (1, 2)].map Prod.fst
       ∧ ((dict.ofPairs [((5 : Nat), (7 : Nat))]).set 5 9).keys
           = (dict.ofPairs [((5 : Nat), (7 : Nat))]).keys) :=
  ⟨by decide, by decide,
    C2_order_preservation [((0 : Nat), (1 : Nat)), (1, 2)] (by decide)
      (dict.ofPairs [((5 : Nat), (7 : Nat))]) 5 9 (by decide)⟩

/-- C3: lookup correctness and round-trip.  The read accessor returns the
value of the first stored pair (in container order) whose key equals k — it
agrees with the first-match search over the pair sequence — and immediately
after the indexed write of (k, v) the read accessor returns v and has_key is
true. -/
theorem C3_lookup_roundtrip [DecidableEq K] (d : dict K V) (k : K) (v : V) :
    d.get k = (d._map.find? (fun p => decide (p.1 = k))).elim
      (Except.error (DictError.key_not_found_in_dict k)) (fun p => Except.ok p.2)
    ∧ (d.set k v).get k = .ok v
    ∧ (d.set k v).has_key k = true :=
  ⟨getAux_eq_find k d._map, getAux_setAux k v d._map, hasKeyAux_setAux k v d._map⟩

/-- C4: not-found failure.  has_key is false exactly when no stored pair has a
key equal to k; the read accessor fails, necessarily with the
key-not-found-in-dict error carrying k, exactly when has_key is false, and so
does pop; in particular, on the empty dictionary both fail with that error
for every key k. -/
theorem C4_not_found [DecidableEq K] (d : dict K V) (k : K) :
    (d.has_key k = false ↔ ∀ p ∈ d._map, p.1 ≠ k)
    ∧ (∀ e, d.get k = .error e ↔ (e = .key_not_found_in_dict k ∧ d.has_key k = false))
    ∧ (∀ e, (d.pop k).2 = .error e ↔ (e = .key_not_found_in_dict k ∧ d.has_key k = false))
    ∧ (dict.empty : dict K V).get k = .error (.key_not_found_in_dict k)
    ∧ ((dict.empty : dict K V).pop k).2 = .error (.key_not_found_in_dict k) :=
  ⟨hasKeyAux_false_iff k d._map,
   fun e => getAux_error_iff k d._map e,
   fun e => popAux_error_iff k d._map e,
   rfl, rfl⟩

/-- C5: removal postcondition.  If the read accessor finds value v for key k,
then the container decomposes as pre ++ (k, v) :: post with no key equal to k
in pre, pop returns v and leaves exactly pre ++ post (the remaining pairs in
their prior relative order), and — whenever the key sequence satisfies the
uniqueness invariant — afterwards has_key k is false and the read accessor
fails with the key-not-found-in-dict error. -/
theorem C5_removal [DecidableEq K] (d : dict K V) (k : K) (v : V)
    (h : d.get k = .ok v) :
    ∃ pre post, d._map = pre ++ (k, v) :: post
      ∧ (∀ p ∈ pre, p.1 ≠ k)
      ∧ (d.pop k).2 = .ok v
      ∧ (d.pop k).1._map = pre ++ post
      ∧ (d.keys.Nodup →
          (d.pop k).1.has_key k = false
          ∧ (d.pop k).1.get k = .error (.key_not_found_in_dict k)) := by
  have hk : hasKeyAux k d._map = true := by
    cases hkk : hasKeyAux k d._map with
    | false =>
      have herr := (getAux_error_iff k d._map (.key_not_found_in_dict k)).mpr ⟨rfl, hkk⟩
      have hget : getAux k d._map = .ok v := h
      rw [herr] at hget
      cases hget
    | true => rfl
  obtain ⟨pre, v', post, heq, hpre, hget, hpop⟩ := popAux_found k d._map hk
  have hv : v' = v := by
    have hget2 : getAux k d._map = .ok v := h
    rw [hget] at hget2
    cases hget2
    rfl
  subst hv
  have hmap1 : (d.pop k).1._map = pre ++ post := by
    show (popAux k d._map).1 = pre ++ post
    rw [hpop]
  refine ⟨pre, post, heq, hpre, ?_, hmap1, ?_⟩
  · show (popAux k d._map).2 = .ok v'
    rw [hpop]
  · intro hnd
    have hkeys : d.keys = keysAux pre ++ k :: keysAux post := by
      show keysAux d._map = _
      rw [heq, keysAux_append]
      rfl
    rw [hkeys] at hnd
    have hknotpost : k ∉ keysAux post :=
      (List.nodup_cons.mp (List.Nodup.of_append_right hnd)).1
    have hpostne : ∀ p ∈ post, p.1 ≠ k := by
      intro p hp hpk
      apply hknotpost
      rw [keysAux_eq_map, ← hpk]
      exact List.mem_map_of_mem Prod.fst hp
    have hfalse : hasKeyAux k (pre ++ post) = false := by
      rw [hasKeyAux_false_iff]
      intro p hp
      rcases List.mem_append.mp hp with hp | hp
      · exact hpre p hp
      · exact hpostne p hp
    constructor
    · show hasKeyAux k (d.pop k).1._map = false
      rw [hmap1]
      exact hfalse
    · show getAux k (d.pop k).1._map = _
      rw [hmap1]
      exact (getAux_error_iff k (pre ++ post) _).mpr ⟨rfl, hfalse⟩

/-- Witness for C5 at K = V = Nat on the dictionary [(0, 10), (1, 20)] with
k = 0 and v = 10. -/
theorem C5_removal_witness :
    (dict.ofPairs [((0 : Nat), (10 : Nat)), (1, 20)]).get 0 = .ok 10
    ∧ ∃ pre post,
        (dict.ofPairs [((0 : Nat), (10 : Nat)), (1, 20)])._map = pre ++ (0, 10) :: post
        ∧ (∀ p ∈ pre, p.1 ≠ 0)
        ∧ ((dict.ofPairs [((0 : Nat), (10 : Nat)), (1, 20)]).pop 0).2 = .ok 10
        ∧ ((dict.ofPairs [((0 : Nat), (10 : Nat)), (1, 20)]).pop 0).1._map = pre ++ post
        ∧ ((dict.ofPairs [((0 : Nat), (10 : Nat)), (1, 20)]).keys.Nodup →
            ((dict.ofPairs [((0 : Nat), (10 : Nat)), (1, 20)]).pop 0).1.has_key 0 = false
            ∧ ((dict.ofPairs [((0 : Nat), (10 : Nat)), (1, 20)]).pop 0).1.get 0
                = .error (.key_not_found_in_dict 0)) :=
  ⟨rfl, C5_removal (dict.ofPairs [((0 : Nat), (10 : Nat)), (1, 20)]) 0 10 rfl⟩

/-- C6: get-or-insert-default (the non-const indexed access).  For every
dictionary and key k: when k is absent the operation appends the pair
(k, default) at the end of the pair sequence and the returned reference holds
default; when k is present the pair sequence is unchanged and the returned
reference holds the existing value (the one the read accessor yields); in
every case the operation produces a value rather than failing, and the key is
afterwards present with the returned value stored behind the reference. -/
theorem C6_get_or_insert_default [DecidableEq K] [Inhabited V] (d : dict K V) (k : K) :
    (d.getOrInsertDefault k).1._map
      = (if d.has_key k then d._map else d._map ++ [(k, (default : V))])
    ∧ (d.getOrInsertDefault k).2 = ((d.get k).toOption.getD default)
    ∧ (d.getOrInsertDefault k).1.get k = .ok ((d.getOrInsertDefault k).2) := by
  cases hk : hasKeyAux k d._map with
  | false =>
    have hgid := gidAux_not_found k d._map hk
    have herr := (getAux_error_iff k d._map (.key_not_found_in_dict k)).mpr ⟨rfl, hk⟩
    have h1 : (d.getOrInsertDefault k).1._map = d._map ++ [(k, (default : V))] := by
      show (gidAux k d._map).1 = _
      rw [hgid]
    have h2 : (d.getOrInsertDefault k).2 = (default : V) := by
      show (gidAux k d._map).2 = _
      rw [hgid]
    have hcond : d.has_key k = false := hk
    refine ⟨?_, ?_, ?_⟩
    · rw [h1, hcond]
      simp
    · rw [h2]
      show _ = (getAux k d._map).toOption.getD default
      rw [herr]
      rfl
    · show getAux k (d.getOrInsertDefault k).1._map = _
      rw [h1, h2, getAux_append_of_not_found k d._map _ hk]
      simp [getAux]
  | true =>
    obtain ⟨pre, v, post, heq, hpre, hget, hpop⟩ := popAux_found k d._map hk
    have hgid := gidAux_found k v d._map hget
    have h1 : (d.getOrInsertDefault k).1._map = d._map := by
      show (gidAux k d._map).1 = _
      rw [hgid]
    have h2 : (d.getOrInsertDefault k).2 = v := by
      show (gidAux k d._map).2 = _
      rw [hgid]
    have hcond : d.has_key k = true := hk
    refine ⟨?_, ?_, ?_⟩
    · rw [h1, hcond]
      simp
    · rw [h2]
      show _ = (getAux k d._map).toOption.getD default
      rw [hget]
      rfl
    · rw [h2]
      show getAux k (d.getOrInsertDefault k).1._map = _
      rw [h1]
      exact hget

/-- C7: the range constructor appends verbatim.  Constructing from a list of
n pairs stores exactly those n pairs in the given order without
deduplicating, so size equals n even when the input contains two pairs with
the same key. -/
theorem C7_range_constructor (ps : List (K × V)) (k : K) (v1 v2 : V) :
    (dict.ofPairs ps)._map = ps
    ∧ (dict.ofPairs ps).size = ps.length
    ∧ (dict.ofPairs [(k, v1), (k, v2)]).size = 2 := by
  refine ⟨ofPairs_map ps, ?_, ?_⟩
  · show (dict.ofPairs ps)._map.length = ps.length
    rw [ofPairs_map]
  · show (dict.ofPairs [(k, v1), (k, v2)])._map.length = 2
    rw [ofPairs_map]
    rfl

/-- C9: failed removal is atomic.  When no stored pair has a key equal to k,
pop fails with the key-not-found-in-dict error and the pair sequence of the
container is completely unchanged. -/
theorem C9_failed_pop_atomic [DecidableEq K] (d : dict K V) (k : K)
    (h : d.has_key k = false) :
    (d.pop k).1 = d ∧ (d.pop k).2 = .error (.key_not_found_in_dict k) := by
  have hp := popAux_not_found k d._map h
  constructor
  · rw [dict.ext_iff_map]
    show (popAux k d._map).1 = d._map
    rw [hp]
  · show (popAux k d._map).2 = _
    rw [hp]

/-- Witness for C9 at K = V = Nat on the dictionary [(1, 2)] with the absent
key 0. -/
theorem C9_failed_pop_atomic_witness :
    (dict.ofPairs [((1 : Nat), (2 : Nat))]).has_key 0 = false
    ∧ (((dict.ofPairs [((1 : Nat), (2 : Nat))]).pop 0).1 = dict.ofPairs [((1 : Nat), (2 : Nat))]
       ∧ ((dict.ofPairs [((1 : Nat), (2 : Nat))]).pop 0).2
           = .error (.key_not_found_in_dict 0)) :=
  ⟨by decide, C9_failed_pop_atomic (dict.ofPairs [((1 : Nat), (2 : Nat))]) 0 (by decide)⟩

/-- C10: snapshot alignment.  keys() and vals() have the same length as
size(), and at every index i below size() the i-th key and the i-th value come
from the same stored pair. -/
theorem C10_snapshot_alignment (d : dict K V) (i : Nat) (h : i < d.size) :
    d.keys.length = d.size
    ∧ d.vals.length = d.size
    ∧ ∃ p, d._map[i]? = some p ∧ d.keys[i]? = some p.1 ∧ d.vals[i]? = some p.2 := by
  refine ⟨?_, ?_, ?_⟩
  · show (keysAux d._map).length = d._map.length
    rw [keysAux_eq_map, List.length_map]
  · show (valsAux d._map).length = d._map.length
    rw [valsAux_eq_map, List.length_map]
  · have hlt : i < d._map.length := h
    refine ⟨d._map[i], List.getElem?_eq_getElem hlt, ?_, ?_⟩
    · show (keysAux d._map)[i]? = _
      rw [keysAux_eq_map, List.getElem?_map, List.getElem?_eq_getElem hlt]
      rfl
    · show (valsAux d._map)[i]? = _
      rw [valsAux_eq_map, List.getElem?_map, List.getElem?_eq_getElem hlt]
      rfl

/-- Witness for C10 at K = V = Nat on the dictionary [(3, 4), (5, 6)] at
index 1. -/
theorem C10_snapshot_alignment_witness :
    1 < (dict.ofPairs [((3 : Nat), (4 : Nat)), (5, 6)]).size
    ∧ ((dict.ofPairs [((3 : Nat), (4 : Nat)), (5, 6)]).keys.length
         = (dict.ofPairs [((3 : Nat), (4 : Nat)), (5, 6)]).size
       ∧ (dict.ofPairs [((3 : Nat), (4 : Nat)), (5, 6)]).vals.length
           = (dict.ofPairs [((3 : Nat), (4 : Nat)), (5, 6)]).size
       ∧ ∃ p, (dict.ofPairs [((3 : Nat), (4 : Nat)), (5, 6)])._map[1]? = some p
           ∧ (dict.ofPairs [((3 : Nat), (4 : Nat)), (5, 6)]).keys[1]? = some p.1
           ∧ (dict.ofPairs [((3 : Nat), (4 : Nat)), (5, 6)]).vals[1]? = some p.2) :=
  ⟨by decide,
    C10_snapshot_alignment (dict.ofPairs [((3 : Nat), (4 : Nat)), (5, 6)]) 1 (by decide)⟩

end uhd
